import Mathlib

/-!
Verification of the mentionable reconciliation logic of
`src/components/chat-view/chat-input/ChatUserInput.tsx`.

The handlers (`handleMentionNodeMutation`, `handleCreateImageMentionables`,
`handleMentionableDelete`, the preview query, the badge click handler and the
mobile viewport adapter) are translated directly from the source file.  The
collaborator modules (`types/mentionable`, `utils/chat/mentionable`,
`utils/obsidian`) are not part of the source tree, so their data types and
functions are modelled from the specification.
-/

namespace ChatUserInput

/-- Modelled from the spec: a vault file handle (the live "file reference"
carried by file/block mentionables; only its path identifies it). -/
structure TFile where
  path : String
deriving DecidableEq, Repr

/-- Modelled from the spec: the vault/file abstraction, a store mapping file
handles to their text content.  `read-file-content(file) → text`. -/
structure Vault where
  files : List (TFile × String)
deriving DecidableEq, Repr

/-- Modelled from the spec: the host application handle, exposing the vault. -/
structure App where
  vault : Vault
deriving DecidableEq, Repr

/-- Modelled from the spec (`types/mentionable` is not in the source tree):
a tagged union over variants {current-file, file, block, image, tool}; each
variant carries its payload (a live file reference; a line range and content
for "block"; raw image data for "image").  The current-file variant's file
reference may be absent (the source guards `m.file &&` for it). -/
inductive Mentionable where
  | currentFile (file : Option TFile)
  | file (file : TFile)
  | block (content : String) (file : TFile) (startLine endLine : Nat)
  | image (name mimeType data : String)
  | tool (name : String)
deriving DecidableEq, Repr

/-- Modelled from the spec: the canonical serialized form of a mentionable,
with runtime-only fields (live file handles) replaced by stable descriptors
(paths). -/
inductive SerializedMentionable where
  | currentFile (path : Option String)
  | file (path : String)
  | block (content : String) (path : String) (startLine endLine : Nat)
  | image (name mimeType data : String)
  | tool (name : String)
deriving DecidableEq, Repr

/-- Modelled from the spec: serialization strips runtime-only fields (live
file handles become paths). -/
def serializeMentionable : Mentionable → SerializedMentionable
  | .currentFile f => .currentFile (f.map TFile.path)
  | .file f => .file f.path
  | .block content f s e => .block content f.path s e
  | .image n mt d => .image n mt d
  | .tool n => .tool n

/-- Modelled from the spec: identity is derived by a deterministic key
function over the canonical serialized form. -/
def getMentionableKey : SerializedMentionable → String
  | .currentFile p => "current-file:" ++ p.getD ""
  | .file p => "file:" ++ p
  | .block _ p s e => "block:" ++ p ++ ":" ++ toString s ++ ":" ++ toString e
  | .image n mt d => "image:" ++ n ++ ":" ++ mt ++ ":" ++ d
  | .tool n => "tool:" ++ n

/-- Modelled from the spec: deserialization turns a stable descriptor back
into a live mentionable by resolving paths against the vault; it fails
(returns nothing) when a referenced file does not exist. -/
def deserializeMentionable (m : SerializedMentionable) (app : App) :
    Option Mentionable :=
  match m with
  | .currentFile none => some (.currentFile none)
  | .currentFile (some p) =>
      (app.vault.files.find? (fun fc => fc.1.path == p)).map
        (fun fc => .currentFile (some fc.1))
  | .file p =>
      (app.vault.files.find? (fun fc => fc.1.path == p)).map
        (fun fc => .file fc.1)
  | .block content p s e =>
      (app.vault.files.find? (fun fc => fc.1.path == p)).map
        (fun fc => .block content fc.1 s e)
  | .image n mt d => some (.image n mt d)
  | .tool n => some (.tool n)

/-- Modelled from the spec: `read-file-content(file) → text`; fails when the
file is not in the vault. -/
def readTFileContent (file : TFile) (vault : Vault) : Option String :=
  (vault.files.find? (fun fc => fc.1 == file)).map (fun fc => fc.2)

/-- Editor mutation kinds reported by the OnMutation plugin (Lexical reports
created / destroyed / updated; the handler only inspects the first two). -/
inductive MutationKind where
  | created
  | destroyed
  | updated
deriving DecidableEq, Repr

/-- One editor mutation record: the mutation kind together with the affected
mention node's mentionable (`mutation.node.getMentionable()`). -/
structure NodeMutation where
  mutation : MutationKind
  node : SerializedMentionable
deriving DecidableEq, Repr

/-- The component state the handlers read and replace: the externally owned
mentionable list and the displayed (previewed) mentionable key. -/
structure InputState where
  mentionables : List Mentionable
  displayedMentionableKey : Option String
deriving DecidableEq, Repr

/-- One step of the `mutations.forEach` loop of `handleMentionNodeMutation`:
threading the `destroyedMentionableKeys` and `addedMentionables` arrays.
`editorNodes` is the list of mentionables of the editor's current live
mention nodes (`$nodesOfType(MentionNode)` read at handling time). -/
def processMutation (editorNodes : List SerializedMentionable)
    (mentionables : List Mentionable)
    (acc : List String × List SerializedMentionable)
    (mutation : NodeMutation) : List String × List SerializedMentionable :=
  let mentionable := mutation.node
  let mentionableKey := getMentionableKey mentionable
  match mutation.mutation with
  | .destroyed =>
      let nodeWithSameMentionable := editorNodes.find?
        (fun node => getMentionableKey node == mentionableKey)
      if nodeWithSameMentionable.isNone then
        (acc.1 ++ [mentionableKey], acc.2)
      else
        acc
  | .created =>
      if mentionables.any (fun m =>
            getMentionableKey (serializeMentionable m) == mentionableKey)
          || acc.2.any (fun m => getMentionableKey m == mentionableKey) then
        acc
      else
        (acc.1, acc.2 ++ [mentionable])
  | .updated => acc

/-- Handler `handleMentionNodeMutation`: reconciles the mentionable list and the
displayed key against one batch of mention-node mutations. -/
def handleMentionNodeMutation (app : App)
    (editorNodes : List SerializedMentionable) (s : InputState)
    (mutations : List NodeMutation) : InputState :=
  let acc := mutations.foldl (processMutation editorNodes s.mentionables)
    ([], [])
  let destroyedMentionableKeys := acc.1
  let addedMentionables := acc.2
  { mentionables :=
      (s.mentionables.filter (fun m =>
        !destroyedMentionableKeys.contains
          (getMentionableKey (serializeMentionable m)))).append
      (addedMentionables.filterMap (fun m => deserializeMentionable m app))
    displayedMentionableKey :=
      match addedMentionables.getLast? with
      | some last => some (getMentionableKey last)
      | none => s.displayedMentionableKey }

/-- An uploaded image mentionable (the `MentionableImage` payload). -/
structure MentionableImage where
  name : String
  mimeType : String
  data : String
deriving DecidableEq, Repr

/-- The inclusion of `MentionableImage` into the `Mentionable` union. -/
def MentionableImage.toMentionable (m : MentionableImage) : Mentionable :=
  .image m.name m.mimeType m.data

/-- Handler `handleCreateImageMentionables`: deduplicate the uploaded images against
the current list by key, append the rest, and focus the last new image. -/
def handleCreateImageMentionables (s : InputState)
    (mentionableImages : List MentionableImage) : InputState :=
  let newMentionableImages := mentionableImages.filter (fun m =>
    !s.mentionables.any (fun mentionable =>
      getMentionableKey (serializeMentionable mentionable) ==
        getMentionableKey (serializeMentionable m.toMentionable)))
  if newMentionableImages.length == 0 then
    s
  else
    { mentionables :=
        s.mentionables ++ newMentionableImages.map (·.toMentionable)
      displayedMentionableKey :=
        match newMentionableImages.getLast? with
        | some last =>
            some (getMentionableKey (serializeMentionable last.toMentionable))
        | none => s.displayedMentionableKey }

/-- Handler `handleMentionableDelete`: remove the mentionable from the external list
by key, and remove every editor mention node carrying the same key
(`node.remove()` inside `editorRef.current?.update`).  Returns the new state
together with the editor's remaining live mention-node mentionables. -/
def handleMentionableDelete (s : InputState)
    (editorNodes : List SerializedMentionable) (mentionable : Mentionable) :
    InputState × List SerializedMentionable :=
  let mentionableKey := getMentionableKey (serializeMentionable mentionable)
  ({ s with
      mentionables := s.mentionables.filter (fun m =>
        getMentionableKey (serializeMentionable m) != mentionableKey) },
   editorNodes.filter (fun node => getMentionableKey node != mentionableKey))

/-- Splitting a character sequence at newline characters, with the
semantics of the JS `String.prototype.split('\\n')` used by the preview
resolver. -/
def splitLinesAux : List Char -> List (List Char)
  | [] => [[]]
  | c :: cs =>
      let r := splitLinesAux cs
      if c = '\n' then
        [] :: r
      else
        match r with
        | [] => [[c]]
        | h :: t => (c :: h) :: t

/-- The JS `fileContent.split('\\n')`: the file content as a list of lines. -/
def splitLines (s : String) : List String :=
  (splitLinesAux s.data).map (fun l => String.mk l)

/-- The `displayedMentionable` memo of `MentionableContentPreview`: the first
list entry whose key equals the displayed key ("?? null" modelled as the
option itself). -/
def displayedMentionableOf (mentionables : List Mentionable)
    (displayedMentionableKey : Option String) : Option Mentionable :=
  mentionables.find? (fun m =>
    some (getMentionableKey (serializeMentionable m)) ==
      displayedMentionableKey)

/-- The `queryFn` of `MentionableContentPreview`'s `useQuery`: resolve the
displayed mentionable to preview text (`null`/read failure both yield no
preview, modelled as `none`). -/
def mentionableContentPreviewQueryFn (app : App)
    (displayedMentionable : Option Mentionable) : Option String :=
  match displayedMentionable with
  | none => none
  | some m =>
    match m with
    | .file f => readTFileContent f app.vault
    | .currentFile none => none
    | .currentFile (some f) => readTFileContent f app.vault
    | .block _ f startLine endLine =>
        (readTFileContent f app.vault).map (fun fileContent =>
          String.intercalate "\n"
            (((splitLines fileContent).drop (startLine - 1)).take
              (endLine - (startLine - 1))))
    | .image _ _ _ => none
    | .tool _ => none

/-- The observable effect of a `MentionableBadge` `onClick`. -/
inductive BadgeClickAction where
  | openFile (path : String) (line : Option Nat)
  | setDisplayed (key : String)
deriving DecidableEq, Repr

/-- The `m.file` field as tested by the truthiness guard `m.file &&` in the
badge click handler. -/
def Mentionable.fileOf : Mentionable → Option TFile
  | .currentFile f => f
  | .file f => some f
  | .block _ f _ _ => some f
  | .image _ _ _ => none
  | .tool _ => none

/-- The `m.startLine` field (present only on block mentionables). -/
def Mentionable.startLineOf : Mentionable → Option Nat
  | .block _ _ s _ => some s
  | _ => none

/-- Whether a mentionable's type is current-file, file, or block. -/
def Mentionable.isOpenType : Mentionable → Bool
  | .currentFile _ => true
  | .file _ => true
  | .block _ _ _ _ => true
  | _ => false

/-- The `MentionableBadge` `onClick` handler: open the file when the clicked
mentionable is of an openable type, has a file, and is already displayed;
otherwise make it the displayed mentionable. -/
def mentionableBadgeOnClick (displayedMentionableKey : Option String)
    (m : Mentionable) : BadgeClickAction :=
  let mentionableKey := getMentionableKey (serializeMentionable m)
  match m.isOpenType, m.fileOf with
  | true, some file =>
      if some mentionableKey == displayedMentionableKey then
        .openFile file.path m.startLineOf
      else
        .setDisplayed mentionableKey
  | _, _ => .setDisplayed mentionableKey

/-- The inline style overrides the viewport adapter applies to the chat
container (`style.height` / `style.minHeight`, in pixels; `none` is the
cleared state `''`). -/
structure ChatContainerStyle where
  height : Option Int
  minHeight : Option Int
deriving DecidableEq, Repr

/-- The geometry read by `handleVisualResize`: the visual viewport height,
the window inner height, the chat container's distance from the viewport
top, and its current client height. -/
structure ViewportState where
  viewportHeight : Int
  windowHeight : Int
  elementTop : Int
  clientHeight : Int
deriving DecidableEq, Repr

/-- Handler `handleVisualResize`: when the visible viewport height is within the
100px threshold of the window height the keyboard is considered closed and
the inline height overrides are cleared; otherwise the container height is
forced to (viewport height − container top) when the change exceeds the 5px
noise threshold. -/
def handleVisualResize (vs : ViewportState) (style : ChatContainerStyle) :
    ChatContainerStyle :=
  let isKeyboardClosed := (vs.viewportHeight - vs.windowHeight).natAbs < 100
  if isKeyboardClosed then
    { height := none, minHeight := none }
  else
    let newHeight := vs.viewportHeight - vs.elementTop
    if 0 < newHeight ∧ 5 < (vs.clientHeight - newHeight).natAbs then
      { height := some newHeight, minHeight := some newHeight }
    else
      style

/-- An event listener registration: target event name and handler identity,
as used by `addEventListener`/`removeEventListener` on the visual
viewport. -/
structure ListenerReg where
  event : String
  handler : String
deriving DecidableEq, Repr

/-- The two registrations the viewport-adapter effect installs on
`window.visualViewport`. -/
def visualResizeListeners : List ListenerReg :=
  [{ event := "resize", handler := "handleVisualResize" },
   { event := "scroll", handler := "handleVisualResize" }]

/-- The viewport-adapter effect setup: register the resize and scroll
listeners. -/
def viewportEffectSetup (listeners : List ListenerReg) : List ListenerReg :=
  listeners ++ visualResizeListeners

/-- The viewport-adapter effect cleanup: remove the two listeners it
registered and, when the chat container is still reachable, clear the inline
height and min-height it applied. -/
def viewportEffectCleanup (listeners : List ListenerReg)
    (chatContainer : Option ChatContainerStyle) :
    List ListenerReg × Option ChatContainerStyle :=
  (listeners.filter (fun l => !visualResizeListeners.contains l),
   chatContainer.map (fun _ => { height := none, minHeight := none }))

/-! ### Spec-side description of the reconciler (for the refinement claim) -/

/-- Modelled from the spec (step 1 of the reconciler algorithm): for each
destroyed mutation, the node's key is marked for removal exactly when no
live node in the editor currently shares that key. -/
def removalKeys (editorNodes : List SerializedMentionable)
    (mutations : List NodeMutation) : List String :=
  mutations.filterMap (fun mu =>
    match mu.mutation with
    | .destroyed =>
        if editorNodes.any (fun node =>
            getMentionableKey node == getMentionableKey mu.node) then
          none
        else
          some (getMentionableKey mu.node)
    | _ => none)

/-- Modelled from the spec (step 2 of the reconciler algorithm): a created
node is staged for addition unless its key already exists in the current
list or among the nodes already staged in this same batch. -/
def stagedAdditionsAux (mentionables : List Mentionable)
    (staged : List SerializedMentionable) :
    List NodeMutation → List SerializedMentionable
  | [] => staged
  | mu :: rest =>
    match mu.mutation with
    | .created =>
        if mentionables.any (fun m =>
              getMentionableKey (serializeMentionable m) ==
                getMentionableKey mu.node)
            || staged.any (fun m =>
              getMentionableKey m == getMentionableKey mu.node) then
          stagedAdditionsAux mentionables staged rest
        else
          stagedAdditionsAux mentionables (staged ++ [mu.node]) rest
    | _ => stagedAdditionsAux mentionables staged rest

/-- The staged additions of a whole batch. -/
def stagedAdditions (mentionables : List Mentionable)
    (mutations : List NodeMutation) : List SerializedMentionable :=
  stagedAdditionsAux mentionables [] mutations

/-- The derived keys of a mentionable list. -/
def mentionableKeys (l : List Mentionable) : List String :=
  l.map (fun m => getMentionableKey (serializeMentionable m))

/-! ### Properties of the mutation reconciler fold -/

/-- One `forEach` step only adds removal keys that have no live node. -/
lemma processMutation_fst_mem (editorNodes : List SerializedMentionable)
    (mentionables : List Mentionable)
    (acc : List String × List SerializedMentionable) (mu : NodeMutation)
    (k : String)
    (hk : k ∈ (processMutation editorNodes mentionables acc mu).1) :
    k ∈ acc.1 ∨
      editorNodes.find? (fun node => getMentionableKey node == k) = none := by
  obtain ⟨kind, node⟩ := mu
  cases kind with
  | destroyed =>
      simp only [processMutation] at hk
      split at hk
      · next hfind =>
          rcases List.mem_append.mp hk with h | h
          · exact Or.inl h
          · rcases List.mem_singleton.mp h with rfl
            exact Or.inr (Option.isNone_iff_eq_none.mp hfind)
      · exact Or.inl hk
  | created =>
      simp only [processMutation] at hk
      split at hk
      · exact Or.inl hk
      · exact Or.inl hk
  | updated => exact Or.inl hk

/-- Across the whole batch, every key collected in
`destroyedMentionableKeys` has no matching live node in the editor. -/
lemma foldl_destroyed_keys_not_live (editorNodes : List SerializedMentionable)
    (mentionables : List Mentionable) (mutations : List NodeMutation)
    (acc : List String × List SerializedMentionable)
    (hacc : ∀ k ∈ acc.1,
      editorNodes.find? (fun node => getMentionableKey node == k) = none) :
    ∀ k ∈ (mutations.foldl (processMutation editorNodes mentionables) acc).1,
      editorNodes.find? (fun node => getMentionableKey node == k) = none := by
  induction mutations generalizing acc with
  | nil => exact hacc
  | cons mu rest ih =>
      intro k hk
      refine ih (processMutation editorNodes mentionables acc mu) ?_ k hk
      intro k' hk'
      rcases processMutation_fst_mem editorNodes mentionables acc mu k' hk'
        with h | h
      · exact hacc k' h
      · exact h

/-- C1.  Last-reference-wins: a mentionable whose key still has a live
mention node in the current editor state is never removed by
`handleMentionNodeMutation`, whatever the mutation batch contains; in
particular a destroyed/created pair on the same key never causes removal,
because the freshly created node is live at handling time. -/
theorem mention_reconciler_last_reference_wins (app : App)
    (editorNodes : List SerializedMentionable) (s : InputState)
    (mutations : List NodeMutation) (k : String)
    (hlive : ∃ n ∈ editorNodes, getMentionableKey n = k) :
    ∀ m ∈ s.mentionables, getMentionableKey (serializeMentionable m) = k →
      m ∈ (handleMentionNodeMutation app editorNodes s mutations).mentionables
    := by
  intro m hm hkey
  obtain ⟨n, hn, hnk⟩ := hlive
  have hnotdk : k ∉ (mutations.foldl
      (processMutation editorNodes s.mentionables) ([], [])).1 := by
    intro hk
    have hfind := foldl_destroyed_keys_not_live editorNodes s.mentionables
      mutations ([], []) (by intro k' hk'; simp at hk') k hk
    have := List.find?_eq_none.mp hfind n hn
    simp [hnk] at this
  simp only [handleMentionNodeMutation, List.append_eq]
  refine List.mem_append.mpr (Or.inl ?_)
  refine List.mem_filter.mpr ⟨hm, ?_⟩
  rw [hkey]
  simpa using hnotdk

/-- C1 witness: a concrete batch destroying the only `a.md` node while an
`a.md` node is still live keeps the `a.md` mentionable. -/
theorem mention_reconciler_last_reference_wins_witness :
    Mentionable.file ⟨"a.md"⟩ ∈
      (handleMentionNodeMutation ⟨⟨[]⟩⟩ [.file "a.md"]
        ⟨[.file ⟨"a.md"⟩], none⟩
        [⟨.destroyed, .file "a.md"⟩]).mentionables :=
  mention_reconciler_last_reference_wins ⟨⟨[]⟩⟩ [.file "a.md"]
    ⟨[.file ⟨"a.md"⟩], none⟩ [⟨.destroyed, .file "a.md"⟩] "file:a.md"
    ⟨.file "a.md", by decide, by decide⟩
    (Mentionable.file ⟨"a.md"⟩) (by decide) (by decide)

/-- The `forEach` fold of `handleMentionNodeMutation` computes exactly the
spec-side removal keys and staged additions. -/
lemma foldl_processMutation_eq (editorNodes : List SerializedMentionable)
    (mentionables : List Mentionable) (mutations : List NodeMutation)
    (acc : List String × List SerializedMentionable) :
    mutations.foldl (processMutation editorNodes mentionables) acc =
      (acc.1 ++ removalKeys editorNodes mutations,
       stagedAdditionsAux mentionables acc.2 mutations) := by
  induction mutations generalizing acc with
  | nil => simp [removalKeys, stagedAdditionsAux]
  | cons mu rest ih =>
      obtain ⟨kind, node⟩ := mu
      have hfind : ∀ (l : List SerializedMentionable)
          (p : SerializedMentionable → Bool),
          (l.find? p).isNone = !l.any p := by
        intro l p
        induction l with
        | nil => rfl
        | cons a t iht =>
            cases hpa : p a <;> simp [List.find?_cons, hpa, iht]
      cases kind with
      | destroyed =>
          by_cases hc : editorNodes.any (fun n =>
            getMentionableKey n == getMentionableKey node)
          · have hc' : ∃ x ∈ editorNodes,
                getMentionableKey x = getMentionableKey node := by
              simpa using hc
            simp [List.foldl_cons, processMutation, removalKeys,
              List.filterMap_cons, stagedAdditionsAux, hfind, hc, ih, hc']
          · have hc' : ¬ ∃ x ∈ editorNodes,
                getMentionableKey x = getMentionableKey node := by
              simpa using hc
            simp [List.foldl_cons, processMutation, removalKeys,
              List.filterMap_cons, stagedAdditionsAux, hfind, hc, ih, hc']
      | created =>
          simp only [List.foldl_cons, processMutation, removalKeys,
            List.filterMap_cons, stagedAdditionsAux]
          split
          · rw [ih]
            simp [removalKeys]
          · rw [ih]
            simp [removalKeys]
      | updated =>
          simp only [List.foldl_cons, processMutation, removalKeys,
            List.filterMap_cons, stagedAdditionsAux]
          rw [ih]
          simp [removalKeys]

/-- C3.  The reconciler's result shape: the next list is the current list
with the marked removal keys filtered out, concatenated with the staged
additions deserialized (dropping failures); the displayed key becomes the
key of the last staged addition when any addition was staged; and the spec's
concrete example `[FileA]` + `[created FileB]` yields `[FileA, FileB]` with
`FileB` displayed. -/
theorem mention_reconciler_result_shape :
    (∀ (app : App) (editorNodes : List SerializedMentionable)
        (s : InputState) (mutations : List NodeMutation),
      handleMentionNodeMutation app editorNodes s mutations =
        { mentionables :=
            (s.mentionables.filter (fun m =>
              !(removalKeys editorNodes mutations).contains
                (getMentionableKey (serializeMentionable m)))) ++
            ((stagedAdditions s.mentionables mutations).filterMap
              (fun m => deserializeMentionable m app))
          displayedMentionableKey :=
            match (stagedAdditions s.mentionables mutations).getLast? with
            | some last => some (getMentionableKey last)
            | none => s.displayedMentionableKey }) ∧
    handleMentionNodeMutation ⟨⟨[(⟨"FileB.md"⟩, "b content")]⟩⟩ []
        ⟨[.file ⟨"FileA.md"⟩], none⟩ [⟨.created, .file "FileB.md"⟩] =
      ⟨[.file ⟨"FileA.md"⟩, .file ⟨"FileB.md"⟩], some "file:FileB.md"⟩ := by
  constructor
  · intro app editorNodes s mutations
    simp [handleMentionNodeMutation, foldl_processMutation_eq,
      stagedAdditions]
  · decide

/-! ### Key uniqueness -/

/-- Deserializing a canonical descriptor yields a mentionable that
serializes back to the same descriptor (the vault lookup returns a handle
with the looked-up path). -/
lemma serialize_deserialize (app : App) (sm : SerializedMentionable)
    (m : Mentionable) (h : deserializeMentionable sm app = some m) :
    serializeMentionable m = sm := by
  cases sm with
  | currentFile p =>
      cases p with
      | none =>
          simp only [deserializeMentionable, Option.some_inj] at h
          subst h; rfl
      | some p =>
          simp only [deserializeMentionable, Option.map_eq_some'] at h
          obtain ⟨fc, hfind, rfl⟩ := h
          have hp := List.find?_some hfind
          simp only [beq_iff_eq] at hp
          simp [serializeMentionable, hp]
  | file p =>
      simp only [deserializeMentionable, Option.map_eq_some'] at h
      obtain ⟨fc, hfind, rfl⟩ := h
      have hp := List.find?_some hfind
      simp only [beq_iff_eq] at hp
      simp [serializeMentionable, hp]
  | block content p s e =>
      simp only [deserializeMentionable, Option.map_eq_some'] at h
      obtain ⟨fc, hfind, rfl⟩ := h
      have hp := List.find?_some hfind
      simp only [beq_iff_eq] at hp
      simp [serializeMentionable, hp]
  | image n mt d =>
      simp only [deserializeMentionable, Option.some_inj] at h
      subst h; rfl
  | tool n =>
      simp only [deserializeMentionable, Option.some_inj] at h
      subst h; rfl

/-- The keys of the successfully deserialized additions form a sublist of
the keys of the staged additions. -/
lemma mentionableKeys_filterMap_deserialize (app : App)
    (l : List SerializedMentionable) :
    List.Sublist
      (mentionableKeys (l.filterMap (fun m => deserializeMentionable m app)))
      (l.map getMentionableKey) := by
  induction l with
  | nil => simp [mentionableKeys]
  | cons sm rest ih =>
      cases hd : deserializeMentionable sm app with
      | none =>
          simp only [List.filterMap_cons, hd, List.map_cons]
          exact ih.cons _
      | some m =>
          have hk := serialize_deserialize app sm m hd
          simp only [List.filterMap_cons, hd, List.map_cons, mentionableKeys,
            hk]
          exact (ih.cons₂ _)

/-- The staged additions carry pairwise distinct keys, none of which occurs
in the current mentionable list. -/
lemma stagedAdditionsAux_keys (mentionables : List Mentionable)
    (mutations : List NodeMutation) (staged : List SerializedMentionable)
    (hst : (staged.map getMentionableKey).Nodup)
    (hdis : ∀ sm ∈ staged,
      getMentionableKey sm ∉ mentionableKeys mentionables) :
    ((stagedAdditionsAux mentionables staged mutations).map
      getMentionableKey).Nodup ∧
    ∀ sm ∈ stagedAdditionsAux mentionables staged mutations,
      getMentionableKey sm ∉ mentionableKeys mentionables := by
  induction mutations generalizing staged with
  | nil => exact ⟨hst, hdis⟩
  | cons mu rest ih =>
      obtain ⟨kind, node⟩ := mu
      cases kind with
      | destroyed => exact ih staged hst hdis
      | updated => exact ih staged hst hdis
      | created =>
          simp only [stagedAdditionsAux]
          by_cases hcond : (mentionables.any (fun m =>
                getMentionableKey (serializeMentionable m) ==
                  getMentionableKey node)
              || staged.any (fun m =>
                getMentionableKey m == getMentionableKey node)) = true
          · rw [if_pos hcond]
            exact ih staged hst hdis
          · rw [if_neg hcond]
            simp only [Bool.or_eq_true, not_or, List.any_eq_true, not_exists,
              not_and, beq_iff_eq] at hcond
            obtain ⟨hnotin, hnotstaged⟩ := hcond
            refine ih (staged ++ [node]) ?_ ?_
            · rw [List.map_append]
              refine List.nodup_append.mpr ⟨hst, List.nodup_singleton _, ?_⟩
              intro a ha hb
              rcases List.mem_singleton.mp hb with rfl
              obtain ⟨sm, hsm, hsmk⟩ := List.mem_map.mp ha
              exact hnotstaged sm hsm hsmk
            · intro sm hsm
              rcases List.mem_append.mp hsm with h | h
              · exact hdis sm h
              · rcases List.mem_singleton.mp h with rfl
                intro hmem
                obtain ⟨m, hm, hmk⟩ := List.mem_map.mp hmem
                exact hnotin m hm hmk

/-- The keys of a concatenation. -/
lemma mentionableKeys_append (a b : List Mentionable) :
    mentionableKeys (a ++ b) = mentionableKeys a ++ mentionableKeys b :=
  List.map_append _ a b

/-- C2.  Key uniqueness invariant: starting from a list with pairwise
distinct derived keys, each list-replacing operation — the mutation
reconciler on any batch, the image handler on any image set (pairwise
distinct keys), and delete on any mentionable — again produces a list with
pairwise distinct derived keys. -/
theorem mentionable_keys_unique_invariant (s : InputState)
    (h : (mentionableKeys s.mentionables).Nodup) :
    (∀ (app : App) (editorNodes : List SerializedMentionable)
        (mutations : List NodeMutation),
      (mentionableKeys (handleMentionNodeMutation app editorNodes s
        mutations).mentionables).Nodup) ∧
    (∀ mentionableImages : List MentionableImage,
      (mentionableImages.map (fun m =>
        getMentionableKey (serializeMentionable m.toMentionable))).Nodup →
      (mentionableKeys (handleCreateImageMentionables s
        mentionableImages).mentionables).Nodup) ∧
    (∀ (editorNodes : List SerializedMentionable) (d : Mentionable),
      (mentionableKeys (handleMentionableDelete s editorNodes
        d).1.mentionables).Nodup) := by
  refine ⟨?_, ?_, ?_⟩
  · intro app editorNodes mutations
    have hstaged := stagedAdditionsAux_keys s.mentionables mutations []
      (by simp) (by simp)
    simp only [handleMentionNodeMutation, foldl_processMutation_eq,
      List.nil_append, List.append_eq]
    rw [mentionableKeys_append]
    refine List.nodup_append.mpr ⟨?_, ?_, ?_⟩
    · exact h.sublist ((List.filter_sublist s.mentionables).map _)
    · exact (hstaged.1.sublist
        (mentionableKeys_filterMap_deserialize app _))
    · intro a ha hb
      have hmem : a ∈ mentionableKeys s.mentionables :=
        ((List.filter_sublist s.mentionables).map _).subset ha
      have hb' : a ∈ (stagedAdditionsAux s.mentionables [] mutations).map
          getMentionableKey :=
        (mentionableKeys_filterMap_deserialize app _).subset hb
      obtain ⟨sm, hsm, rfl⟩ := List.mem_map.mp hb'
      exact hstaged.2 sm hsm hmem
  · intro mentionableImages himg
    simp only [handleCreateImageMentionables]
    split
    · exact h
    · rw [mentionableKeys_append]
      refine List.nodup_append.mpr ⟨h, ?_, ?_⟩
      · rw [mentionableKeys, List.map_map]
        exact himg.sublist ((List.filter_sublist mentionableImages).map _)
      · intro a ha hb
        rw [mentionableKeys, List.map_map] at hb
        obtain ⟨img, himgmem, rfl⟩ := List.mem_map.mp hb
        have hp := List.of_mem_filter himgmem
        simp only [Bool.not_eq_true', List.any_eq_false,
          beq_eq_false_iff_ne, ne_eq] at hp
        obtain ⟨m, hm, hmk⟩ := List.mem_map.mp ha
        exact hp m hm (by simpa using hmk)
  · intro editorNodes d
    exact h.sublist ((List.filter_sublist s.mentionables).map _)

/-- C2 witness: the invariant applied to the singleton list `[a.md]` for a
creation batch, an image upload and a delete. -/
theorem mentionable_keys_unique_invariant_witness :
    (mentionableKeys (handleMentionNodeMutation ⟨⟨[]⟩⟩ []
      ⟨[.file ⟨"a.md"⟩], none⟩
      [⟨.created, .file "b.md"⟩]).mentionables).Nodup ∧
    (mentionableKeys (handleCreateImageMentionables ⟨[.file ⟨"a.md"⟩], none⟩
      [⟨"i.png", "image/png", "xyz"⟩]).mentionables).Nodup ∧
    (mentionableKeys (handleMentionableDelete ⟨[.file ⟨"a.md"⟩], none⟩ []
      (.file ⟨"a.md"⟩)).1.mentionables).Nodup := by
  have h := mentionable_keys_unique_invariant ⟨[.file ⟨"a.md"⟩], none⟩
    (by decide)
  exact ⟨h.1 ⟨⟨[]⟩⟩ [] [⟨.created, .file "b.md"⟩],
    h.2.1 [⟨"i.png", "image/png", "xyz"⟩] (by decide),
    h.2.2 [] (.file ⟨"a.md"⟩)⟩

/-- C4.  Delete is two-sided: every entry and every editor node whose key
equals the deleted mentionable's key is removed, and all entries and nodes
with other keys are kept in order. -/
theorem mentionable_delete_two_sided (s : InputState)
    (editorNodes : List SerializedMentionable) (d : Mentionable) :
    (∀ m ∈ (handleMentionableDelete s editorNodes d).1.mentionables,
      getMentionableKey (serializeMentionable m) ≠
        getMentionableKey (serializeMentionable d)) ∧
    ((handleMentionableDelete s editorNodes d).1.mentionables =
      s.mentionables.filter (fun m =>
        !(getMentionableKey (serializeMentionable m) ==
          getMentionableKey (serializeMentionable d)))) ∧
    (∀ n ∈ (handleMentionableDelete s editorNodes d).2,
      getMentionableKey n ≠ getMentionableKey (serializeMentionable d)) ∧
    ((handleMentionableDelete s editorNodes d).2 =
      editorNodes.filter (fun n =>
        !(getMentionableKey n ==
          getMentionableKey (serializeMentionable d)))) := by
  refine ⟨?_, ?_, ?_, ?_⟩
  · intro m hm
    have hp := List.of_mem_filter hm
    simpa using hp
  · simp [handleMentionableDelete, bne]
  · intro n hn
    have hp := List.of_mem_filter hn
    simpa using hp
  · simp [handleMentionableDelete, bne]

/-- C4 witness: deleting `a.md` from a two-entry list with two matching
editor nodes and one other node. -/
theorem mentionable_delete_two_sided_witness :
    (∀ m ∈ (handleMentionableDelete
        ⟨[.file ⟨"a.md"⟩, .file ⟨"b.md"⟩], none⟩
        [.file "a.md", .file "b.md", .file "a.md"]
        (.file ⟨"a.md"⟩)).1.mentionables,
      getMentionableKey (serializeMentionable m) ≠
        getMentionableKey (serializeMentionable (.file ⟨"a.md"⟩))) ∧
    ((handleMentionableDelete ⟨[.file ⟨"a.md"⟩, .file ⟨"b.md"⟩], none⟩
        [.file "a.md", .file "b.md", .file "a.md"]
        (.file ⟨"a.md"⟩)).1.mentionables =
      [Mentionable.file ⟨"a.md"⟩, .file ⟨"b.md"⟩].filter (fun m =>
        !(getMentionableKey (serializeMentionable m) ==
          getMentionableKey (serializeMentionable (.file ⟨"a.md"⟩))))) :=
  ⟨(mentionable_delete_two_sided ⟨[.file ⟨"a.md"⟩, .file ⟨"b.md"⟩], none⟩
      [.file "a.md", .file "b.md", .file "a.md"] (.file ⟨"a.md"⟩)).1,
   (mentionable_delete_two_sided ⟨[.file ⟨"a.md"⟩, .file ⟨"b.md"⟩], none⟩
      [.file "a.md", .file "b.md", .file "a.md"] (.file ⟨"a.md"⟩)).2.1⟩

/-- C5.  Idempotent image upload: exactly the images with fresh keys are
appended, focus moves to the last newly added image, and when every
uploaded image's key is already present the whole state is untouched. -/
theorem image_upload_idempotent (s : InputState)
    (mentionableImages : List MentionableImage) :
    ((handleCreateImageMentionables s mentionableImages).mentionables =
      s.mentionables ++ (mentionableImages.filter (fun m =>
        !s.mentionables.any (fun mentionable =>
          getMentionableKey (serializeMentionable mentionable) ==
            getMentionableKey
              (serializeMentionable m.toMentionable)))).map
        (·.toMentionable)) ∧
    (∀ last, (mentionableImages.filter (fun m =>
        !s.mentionables.any (fun mentionable =>
          getMentionableKey (serializeMentionable mentionable) ==
            getMentionableKey
              (serializeMentionable m.toMentionable)))).getLast? =
        some last →
      (handleCreateImageMentionables s
        mentionableImages).displayedMentionableKey =
        some (getMentionableKey
          (serializeMentionable last.toMentionable))) ∧
    ((∀ img ∈ mentionableImages, ∃ m ∈ s.mentionables,
        getMentionableKey (serializeMentionable m) =
          getMentionableKey (serializeMentionable img.toMentionable)) →
      handleCreateImageMentionables s mentionableImages = s) := by
  refine ⟨?_, ?_, ?_⟩
  · simp only [handleCreateImageMentionables]
    split
    · next hlen =>
        simp only [beq_iff_eq, List.length_eq_zero] at hlen
        rw [hlen]
        simp
    · rfl
  · intro last hlast
    simp only [handleCreateImageMentionables]
    split
    · next hlen =>
        simp only [beq_iff_eq, List.length_eq_zero] at hlen
        rw [hlen] at hlast
        simp at hlast
    · rw [hlast]
  · intro hall
    have hnil : mentionableImages.filter (fun m =>
        !s.mentionables.any (fun mentionable =>
          getMentionableKey (serializeMentionable mentionable) ==
            getMentionableKey (serializeMentionable m.toMentionable))) =
        [] := by
      rw [List.filter_eq_nil_iff]
      intro img himg
      obtain ⟨m, hm, hk⟩ := hall img himg
      simp only [Bool.not_eq_true', List.any_eq_false, beq_eq_false_iff_ne,
        ne_eq, not_forall]
      exact ⟨m, hm, by simp [hk]⟩
    simp [handleCreateImageMentionables, hnil]

/-- C5 witness: re-uploading an already-attached image leaves the state
untouched; uploading a fresh image focuses it. -/
theorem image_upload_idempotent_witness :
    handleCreateImageMentionables
        ⟨[MentionableImage.toMentionable ⟨"i.png", "image/png", "xyz"⟩], none⟩
        [⟨"i.png", "image/png", "xyz"⟩] =
      ⟨[MentionableImage.toMentionable ⟨"i.png", "image/png", "xyz"⟩],
        none⟩ ∧
    (handleCreateImageMentionables ⟨[], none⟩
        [⟨"j.png", "image/png", "abc"⟩]).displayedMentionableKey =
      some (getMentionableKey (serializeMentionable
        (MentionableImage.toMentionable ⟨"j.png", "image/png", "abc"⟩))) :=
  ⟨(image_upload_idempotent
      ⟨[MentionableImage.toMentionable ⟨"i.png", "image/png", "xyz"⟩], none⟩
      [⟨"i.png", "image/png", "xyz"⟩]).2.2 (by decide),
   (image_upload_idempotent ⟨[], none⟩
      [⟨"j.png", "image/png", "abc"⟩]).2.1 ⟨"j.png", "image/png", "abc"⟩
      (by decide)⟩

/-- C6.  Block preview slice: for a block mentionable with 1-indexed
`startLine s` and `endLine e` over readable content, the preview is exactly
lines `s` through `e` inclusive — the content split on newlines, a slice of
length `e − s + 1`, rejoined with newlines. -/
theorem block_preview_slice (app : App) (content c : String) (f : TFile)
    (s e : Nat) (hread : readTFileContent f app.vault = some content)
    (hs : 1 ≤ s) (hse : s ≤ e)
    (he : e ≤ (splitLines content).length) :
    mentionableContentPreviewQueryFn app (some (.block c f s e)) =
      some (String.intercalate "\n"
        (((splitLines content).drop (s - 1)).take (e - s + 1))) ∧
    (((splitLines content).drop (s - 1)).take (e - s + 1)).length =
      e - s + 1 := by
  have harith : e - (s - 1) = e - s + 1 := by omega
  constructor
  · simp only [mentionableContentPreviewQueryFn, hread, Option.map_some',
      harith]
  · rw [List.length_take, List.length_drop]
    omega

/-- C6 witness: the spec's example, lines 3–5 of a five-line file. -/
theorem block_preview_slice_witness :
    mentionableContentPreviewQueryFn ⟨⟨[(⟨"X.md"⟩, "l1\nl2\nl3\nl4\nl5")]⟩⟩
        (some (.block "" ⟨"X.md"⟩ 3 5)) =
      some (String.intercalate "\n"
        (((splitLines "l1\nl2\nl3\nl4\nl5").drop
          (3 - 1)).take (5 - 3 + 1))) ∧
    (((splitLines "l1\nl2\nl3\nl4\nl5").drop
      (3 - 1)).take (5 - 3 + 1)).length = 5 - 3 + 1 :=
  block_preview_slice ⟨⟨[(⟨"X.md"⟩, "l1\nl2\nl3\nl4\nl5")]⟩⟩
    "l1\nl2\nl3\nl4\nl5" "" ⟨"X.md"⟩ 3 5 (by decide) (by decide) (by decide)
    (by decide)

/-- C7 counterexample: a current-file mentionable with no live file handle
is of an openable type and can be the displayed one, yet clicking its badge
does not trigger the open-file action — the `m.file &&` guard sends it to
the set-displayed branch instead. -/
theorem badge_click_open_requires_file_counterexample :
    Mentionable.isOpenType (.currentFile none) = true ∧
    mentionableBadgeOnClick
        (some (getMentionableKey (serializeMentionable (.currentFile none))))
        (.currentFile none) =
      .setDisplayed (getMentionableKey
        (serializeMentionable (.currentFile none))) := by
  decide

/-- C7 amended.  Badge click semantics: clicking a badge triggers the
external open-file action (passing the start line when the mentionable is a
block) whenever its type is file, current-file or block, its file reference
is present, and its key equals the displayed key; otherwise the click sets
its key as the new displayed key. -/
theorem badge_click_semantics (displayedMentionableKey : Option String)
    (m : Mentionable) :
    (∀ file : TFile, m.fileOf = some file → m.isOpenType = true →
      some (getMentionableKey (serializeMentionable m)) =
        displayedMentionableKey →
      mentionableBadgeOnClick displayedMentionableKey m =
        .openFile file.path m.startLineOf) ∧
    ((m.isOpenType = false ∨ m.fileOf = none ∨
        some (getMentionableKey (serializeMentionable m)) ≠
          displayedMentionableKey) →
      mentionableBadgeOnClick displayedMentionableKey m =
        .setDisplayed (getMentionableKey (serializeMentionable m))) := by
  constructor
  · intro file hfile hopen hdisp
    simp [mentionableBadgeOnClick, hfile, hopen, hdisp]
  · intro hcase
    rcases hcase with hopen | hfile | hne
    · cases hfo : m.fileOf <;>
        simp [mentionableBadgeOnClick, hopen, hfo]
    · cases hot : m.isOpenType <;>
        simp [mentionableBadgeOnClick, hfile, hot]
    · cases hot : m.isOpenType <;> cases hfo : m.fileOf <;>
        simp [mentionableBadgeOnClick, hot, hfo, hne]

/-- C7 amended witness: a displayed block opens its file at its start line;
a non-displayed file mentionable becomes displayed. -/
theorem badge_click_semantics_witness :
    mentionableBadgeOnClick (some "block:X.md:3:5")
        (.block "" ⟨"X.md"⟩ 3 5) =
      .openFile "X.md" (some 3) ∧
    mentionableBadgeOnClick none (.file ⟨"a.md"⟩) =
      .setDisplayed "file:a.md" := by
  constructor
  · have h := (badge_click_semantics (some "block:X.md:3:5")
      (.block "" ⟨"X.md"⟩ 3 5)).1 ⟨"X.md"⟩ (by decide) (by decide)
      (by decide)
    simpa using h
  · have h := (badge_click_semantics none (.file ⟨"a.md"⟩)).2
      (Or.inr (Or.inr (by decide)))
    simpa using h

/-- C8.  Keyboard-closed detection: whenever the visible viewport height is
within the 100px threshold of the window height, `handleVisualResize`
clears the chat container's inline height and min-height overrides. -/
theorem keyboard_closed_clears_inline_height (vs : ViewportState)
    (style : ChatContainerStyle)
    (h : (vs.viewportHeight - vs.windowHeight).natAbs < 100) :
    handleVisualResize vs style = { height := none, minHeight := none } := by
  simp [handleVisualResize, h]

/-- C8 witness: a 50px difference clears a previously applied override. -/
theorem keyboard_closed_clears_inline_height_witness :
    handleVisualResize ⟨800, 850, 40, 700⟩ ⟨some 500, some 500⟩ =
      { height := none, minHeight := none } :=
  keyboard_closed_clears_inline_height ⟨800, 850, 40, 700⟩
    ⟨some 500, some 500⟩ (by decide)

/-- C9.  Viewport-adapter cleanup: after teardown neither of the adapter's
viewport listeners remains registered, and whatever chat container is still
reachable has its inline height and min-height cleared — no stale inline
height survives unmount. -/
theorem viewport_cleanup_no_stale_state (listeners : List ListenerReg)
    (chatContainer : Option ChatContainerStyle) :
    (∀ l ∈ visualResizeListeners,
      l ∉ (viewportEffectCleanup (viewportEffectSetup listeners)
        chatContainer).1) ∧
    (∀ st ∈ (viewportEffectCleanup (viewportEffectSetup listeners)
        chatContainer).2, st.height = none ∧ st.minHeight = none) := by
  constructor
  · intro l hl hmem
    have hp := List.of_mem_filter hmem
    rw [Bool.not_eq_true'] at hp
    exact absurd hl (by simpa using hp)
  · intro st hst
    cases chatContainer with
    | none => simp [viewportEffectCleanup] at hst
    | some c =>
        simp only [viewportEffectCleanup, Option.map_some',
          Option.mem_def, Option.some_inj] at hst
        rw [← hst]
        exact ⟨rfl, rfl⟩

/-- C9 witness: cleanup over a foreign listener and an overridden container
leaves only the foreign listener and a fully cleared container. -/
theorem viewport_cleanup_no_stale_state_witness :
    (ListenerReg.mk "resize" "handleVisualResize") ∉
      (viewportEffectCleanup
        (viewportEffectSetup [⟨"resize", "other"⟩])
        (some ⟨some 500, some 500⟩)).1 ∧
    ∀ st ∈ (viewportEffectCleanup
        (viewportEffectSetup [⟨"resize", "other"⟩])
        (some ⟨some 500, some 500⟩)).2,
      st.height = none ∧ st.minHeight = none :=
  ⟨(viewport_cleanup_no_stale_state [⟨"resize", "other"⟩]
      (some ⟨some 500, some 500⟩)).1 ⟨"resize", "handleVisualResize"⟩
      (by decide),
   (viewport_cleanup_no_stale_state [⟨"resize", "other"⟩]
      (some ⟨some 500, some 500⟩)).2⟩

/-- C10.  The displayed key is taken from the last staged addition before
deserialization: it is set whenever an addition was staged, even when that
addition fails to deserialize and is dropped — so the displayed key can
refer to a key absent from the resulting list, as the concrete
`ghost.md` batch over an empty vault shows. -/
theorem displayed_key_set_before_deserialization :
    (∀ (app : App) (editorNodes : List SerializedMentionable)
        (s : InputState) (mutations : List NodeMutation)
        (last : SerializedMentionable),
      (stagedAdditions s.mentionables mutations).getLast? = some last →
      (handleMentionNodeMutation app editorNodes s
        mutations).displayedMentionableKey =
        some (getMentionableKey last)) ∧
    (handleMentionNodeMutation ⟨⟨[]⟩⟩ [] ⟨[], none⟩
        [⟨.created, .file "ghost.md"⟩]).displayedMentionableKey =
      some "file:ghost.md" ∧
    "file:ghost.md" ∉ mentionableKeys (handleMentionNodeMutation ⟨⟨[]⟩⟩ []
      ⟨[], none⟩ [⟨.created, .file "ghost.md"⟩]).mentionables := by
  refine ⟨?_, by decide, by decide⟩
  intro app editorNodes s mutations last hlast
  rw [stagedAdditions] at hlast
  simp only [handleMentionNodeMutation, foldl_processMutation_eq,
    List.nil_append, hlast]

/-- C10 witness: the general displayed-key equation applied to the
`ghost.md` batch. -/
theorem displayed_key_set_before_deserialization_witness :
    (handleMentionNodeMutation ⟨⟨[]⟩⟩ [] ⟨[], none⟩
        [⟨.created, .file "ghost.md"⟩]).displayedMentionableKey =
      some (getMentionableKey (.file "ghost.md")) :=
  displayed_key_set_before_deserialization.1 ⟨⟨[]⟩⟩ [] ⟨[], none⟩
    [⟨.created, .file "ghost.md"⟩] (.file "ghost.md") (by decide)

end ChatUserInput
